import Mathlib

/-!
Verification of the wayne repository's core subsystems against its
natural-language specification.

The Rust sources are shallowly embedded: machine integers become `Nat`
with explicit bounds, byte buffers become `List Nat`, and each stateful
routine becomes a pure function on an explicit state type.  Little-endian
byte order models the source's `from_ne_bytes` calls (the spec fixes the
wire format to little-endian on all supported hosts).
-/

namespace Wayne

/-- Little-endian decode of two bytes, mirroring `u16::from_ne_bytes([a, b])`. -/
def u16dec (a b : Nat) : Nat := a + 256 * b

/-- Little-endian decode of four bytes, mirroring `u32::from_ne_bytes([a, b, c, d])`. -/
def u32dec (a b c d : Nat) : Nat := a + 256 * b + 65536 * c + 16777216 * d

/-- Round up to the next multiple of 4; this is the Rust `(n + 3) & !3`
(the operand never approaches `usize::MAX`, so the bitmask form and the
division form agree). -/
def pad4 (n : Nat) : Nat := (n + 3) / 4 * 4

/-- A parsed wayland message, from `wayne-core/src/message.rs` (`Message`):
`object_id: u32`, `opcode: u16`, `body: Box<[u8]>`. -/
structure Msg where
  object_id : Nat
  opcode : Nat
  body : List Nat
deriving DecidableEq, Repr

/-- The resumable state of `MessageParser`, from
`wayne-core/src/message.rs` (`ParseState`).  The header variant carries
the invariant `header.len() < 8`, which the Rust code maintains by
construction (on reaching 8 bytes it immediately transitions to
`IncompleteBody`). -/
inductive ParseState where
  | empty
  | incompleteHeader (header : List Nat) (hlt : header.length < 8)
  | incompleteBody (objectId opcode cap : Nat) (body : List Nat)

/-- Termination rank for the `MessageStream::next` loop: the `Empty` arm
re-enters the loop as a header, and a completed body re-enters it as
`Empty` without necessarily consuming bytes, so the ranks decrease
`body > empty > header` whenever the byte count does not. -/
def stateRank : ParseState → Nat
  | .empty => 1
  | .incompleteHeader _ _ => 0
  | .incompleteBody _ _ _ _ => 2

/-- Draining iteration of `MessageStream` (`wayne-core/src/message.rs`,
`impl Iterator for MessageStream`): repeatedly calls `next` on a chunk of
bytes, returning every yielded message in order together with the parser
state left behind for the next chunk.

Each branch mirrors one arm of the Rust `match`:
* empty input returns immediately (the `bytes.is_empty()` guard);
* `Empty` becomes `IncompleteHeader(Vec::with_capacity(8))`;
* the header arm extends by `cap = (8 - header.len()).min(bytes.len())`
  and either stores the partial header or decodes
  `object_id / opcode / size`, clamps `size` to at least 8, rounds it to
  a multiple of 4, and opens a body of capacity `size - 8`;
* the body arm extends by `(capacity - len).min(bytes.len())` and either
  stores the partial body or yields the message (body *including* the
  padding bytes, exactly as the Rust code fills the full capacity) and
  continues from `Empty`. -/
def feed (s : ParseState) (bytes : List Nat) : List Msg × ParseState :=
  match bytes with
  | [] => ([], s)
  | b :: bs =>
    match s with
    | .empty => feed (.incompleteHeader [] (by simp)) (b :: bs)
    | .incompleteHeader h hlt =>
      let k := min (8 - h.length) (b :: bs).length
      let h2 := h ++ (b :: bs).take k
      let rest := (b :: bs).drop k
      if hcomp : h2.length < 8 then ([], .incompleteHeader h2 hcomp)
      else
        let oid := u32dec (h2.getD 0 0) (h2.getD 1 0) (h2.getD 2 0) (h2.getD 3 0)
        let op := u16dec (h2.getD 4 0) (h2.getD 5 0)
        let size := max (u16dec (h2.getD 6 0) (h2.getD 7 0)) 8
        let psize := pad4 size
        feed (.incompleteBody oid op (psize - 8) []) rest
    | .incompleteBody oid op cap body =>
      let k := min (cap - body.length) (b :: bs).length
      let body2 := body ++ (b :: bs).take k
      let rest := (b :: bs).drop k
      if body2.length < cap then ([], .incompleteBody oid op cap body2)
      else
        let r := feed .empty rest
        (⟨oid, op, body2⟩ :: r.1, r.2)
termination_by (bytes.length, stateRank s)
decreasing_by
  all_goals simp [stateRank, List.length_drop, List.length_cons, Prod.lex_def]
  all_goals omega

/-- Feeding no bytes yields nothing and keeps the parser state
(the `bytes.is_empty()` guard of `MessageStream::next`). -/
theorem feed_nil (s : ParseState) : feed s [] = ([], s) := by rw [feed]

/-- From the `Empty` state a nonempty chunk opens a fresh header. -/
theorem feed_empty_cons (b : Nat) (bs : List Nat) :
    feed .empty (b :: bs) = feed (.incompleteHeader [] (by simp)) (b :: bs) := by rw [feed]

/-- A nonempty chunk too short to finish the header is absorbed whole. -/
theorem feed_header_of_short (h : List Nat) (hlt : h.length < 8) (bytes : List Nat)
    (hb : bytes ≠ []) (hshort : h.length + bytes.length < 8) :
    feed (.incompleteHeader h hlt) bytes =
      ([], .incompleteHeader (h ++ bytes) (by simp; omega)) := by
  cases bytes with
  | nil => exact absurd rfl hb
  | cons b bs =>
    rw [feed]
    have hk : min (8 - h.length) (b :: bs).length = (b :: bs).length := by
      simp only [List.length_cons] at hshort ⊢; omega
    simp only [hk, List.take_length]
    rw [dif_pos (by simp only [List.length_append, List.length_cons] at hshort ⊢; omega)]

/-- A chunk that completes the header decodes it and opens the body. -/
theorem feed_header_of_long (h : List Nat) (hlt : h.length < 8) (bytes : List Nat)
    (hlong : 8 ≤ h.length + bytes.length) :
    feed (.incompleteHeader h hlt) bytes =
      (let h2 := h ++ bytes.take (8 - h.length)
       feed (.incompleteBody
        (u32dec (h2.getD 0 0) (h2.getD 1 0) (h2.getD 2 0) (h2.getD 3 0))
        (u16dec (h2.getD 4 0) (h2.getD 5 0))
        (pad4 (max (u16dec (h2.getD 6 0) (h2.getD 7 0)) 8) - 8) [])
        (bytes.drop (8 - h.length))) := by
  cases bytes with
  | nil => simp only [List.length_nil] at hlong; omega
  | cons b bs =>
    rw [feed]
    have hk : min (8 - h.length) (b :: bs).length = 8 - h.length := by
      simp only [List.length_cons] at hlong ⊢; omega
    simp only [hk]
    rw [dif_neg (by
      simp only [List.length_append, List.length_take, List.length_cons]
      simp only [List.length_cons] at hlong
      omega)]

/-- A nonempty chunk too short to finish the body is absorbed whole. -/
theorem feed_body_of_short (oid op cap : Nat) (bd : List Nat) (bytes : List Nat)
    (hb : bytes ≠ []) (hshort : bd.length + bytes.length < cap) :
    feed (.incompleteBody oid op cap bd) bytes =
      ([], .incompleteBody oid op cap (bd ++ bytes)) := by
  cases bytes with
  | nil => exact absurd rfl hb
  | cons b bs =>
    rw [feed]
    have hk : min (cap - bd.length) (b :: bs).length = (b :: bs).length := by
      simp only [List.length_cons] at hshort ⊢; omega
    simp only [hk, List.take_length]
    rw [if_pos (by simp only [List.length_append, List.length_cons] at hshort ⊢; omega)]

/-- A chunk that completes the body yields the message and continues empty. -/
theorem feed_body_of_long (oid op cap : Nat) (bd : List Nat) (bytes : List Nat)
    (hb : bytes ≠ []) (hlong : cap ≤ bd.length + bytes.length) :
    feed (.incompleteBody oid op cap bd) bytes =
      (⟨oid, op, bd ++ bytes.take (cap - bd.length)⟩
          :: (feed .empty (bytes.drop (cap - bd.length))).1,
        (feed .empty (bytes.drop (cap - bd.length))).2) := by
  cases bytes with
  | nil => exact absurd rfl hb
  | cons b bs =>
    rw [feed]
    have hk : min (cap - bd.length) (b :: bs).length = cap - bd.length := by
      simp only [List.length_cons] at hlong ⊢; omega
    simp only [hk]
    rw [if_neg (by
      simp only [List.length_append, List.length_take, List.length_cons]
      simp only [List.length_cons] at hlong
      omega)]

/-- Feeding a concatenation equals feeding the two chunks in sequence:
the resumable parser state carries all partial progress across the
chunk boundary. -/
theorem feed_append (s : ParseState) (a c : List Nat) :
    feed s (a ++ c) =
      ((feed s a).1 ++ (feed (feed s a).2 c).1, (feed (feed s a).2 c).2) := by
  suffices H : ∀ μ (s : ParseState) (a c : List Nat), 3 * a.length + stateRank s ≤ μ →
      feed s (a ++ c) =
        ((feed s a).1 ++ (feed (feed s a).2 c).1, (feed (feed s a).2 c).2) by
    exact H (3 * a.length + stateRank s) s a c le_rfl
  intro μ
  induction μ using Nat.strong_induction_on with
  | _ μ ih =>
    intro s a c hμ
    match a with
    | [] => simp [feed_nil]
    | b :: bs =>
      match s with
      | .empty =>
        simp only [List.cons_append]
        rw [feed_empty_cons b (bs ++ c), feed_empty_cons b bs]
        exact ih (3 * (b :: bs).length) (by simp [stateRank] at hμ ⊢; omega)
          (.incompleteHeader [] (by simp)) (b :: bs) c (by simp [stateRank])
      | .incompleteHeader h hlt =>
        rcases Nat.lt_or_ge (h.length + (b :: bs).length) 8 with hshort | hlong
        · rw [feed_header_of_short h hlt (b :: bs) (by simp) hshort]
          rcases c with _ | ⟨c0, cs⟩
          · rw [feed_nil]
            simp only [List.append_nil]
            rw [feed_header_of_short h hlt (b :: bs) (by simp) hshort]
          · rcases Nat.lt_or_ge (h.length + ((b :: bs) ++ c0 :: cs).length) 8 with hcs | hcl
            · rw [feed_header_of_short h hlt ((b :: bs) ++ c0 :: cs) (by simp) hcs,
                feed_header_of_short (h ++ (b :: bs)) (by simp only [List.length_append, List.length_cons] at *; omega) (c0 :: cs) (by simp)
                  (by simp only [List.length_append, List.length_cons] at *; omega)]
              simp [List.append_assoc]
            · rw [feed_header_of_long h hlt ((b :: bs) ++ c0 :: cs) (by
                simp only [List.length_append, List.length_cons] at hcl ⊢; omega),
                feed_header_of_long (h ++ (b :: bs)) (by simp only [List.length_append, List.length_cons] at *; omega) (c0 :: cs) (by
                  simp only [List.length_append, List.length_cons] at hcl ⊢; omega)]
              have etake : ((b :: bs) ++ c0 :: cs).take (8 - h.length) =
                  (b :: bs) ++ (c0 :: cs).take (8 - (h ++ b :: bs).length) := by
                rw [List.take_append_eq_append_take,
                  List.take_of_length_le (by simp only [List.length_append, List.length_cons] at *; omega)]
                congr 2
                simp only [List.length_append, List.length_cons]
                omega
              have edrop : ((b :: bs) ++ c0 :: cs).drop (8 - h.length) =
                  (c0 :: cs).drop (8 - (h ++ b :: bs).length) := by
                rw [List.drop_append_eq_append_drop,
                  List.drop_of_length_le (by simp only [List.length_append, List.length_cons] at *; omega)]
                simp only [List.nil_append]
                congr 1
                simp only [List.length_append, List.length_cons]
                omega
              simp only [etake, edrop, List.append_assoc, List.nil_append]
        · rw [feed_header_of_long h hlt (b :: bs) hlong]
          have e8 : 8 - h.length ≤ (b :: bs).length := by
            simp only [List.length_cons] at hlong ⊢; omega
          rw [feed_header_of_long h hlt ((b :: bs) ++ c) (by
            simp only [List.length_append, List.length_cons] at hlong ⊢; omega)]
          simp only [List.take_append_of_le_length e8, List.drop_append_of_le_length e8]
          exact ih (3 * ((b :: bs).drop (8 - h.length)).length + 2) (by
              simp only [stateRank, List.length_drop, List.length_cons] at hμ ⊢; omega)
            _ _ c le_rfl
      | .incompleteBody oid op cap bd =>
        rcases Nat.lt_or_ge (bd.length + (b :: bs).length) cap with hshort | hlong
        · rw [feed_body_of_short oid op cap bd (b :: bs) (by simp) hshort]
          rcases c with _ | ⟨c0, cs⟩
          · rw [feed_nil]
            simp only [List.append_nil]
            rw [feed_body_of_short oid op cap bd (b :: bs) (by simp) hshort]
          · rcases Nat.lt_or_ge (bd.length + ((b :: bs) ++ c0 :: cs).length) cap with hcs | hcl
            · rw [feed_body_of_short oid op cap bd ((b :: bs) ++ c0 :: cs) (by simp) hcs,
                feed_body_of_short oid op cap (bd ++ (b :: bs)) (c0 :: cs) (by simp)
                  (by simp only [List.length_append, List.length_cons] at *; omega)]
              simp [List.append_assoc]
            · rw [feed_body_of_long oid op cap bd ((b :: bs) ++ c0 :: cs) (by simp) (by
                simp only [List.length_append, List.length_cons] at hcl ⊢; omega),
                feed_body_of_long oid op cap (bd ++ (b :: bs)) (c0 :: cs) (by simp) (by
                  simp only [List.length_append, List.length_cons] at hcl ⊢; omega)]
              have etake : ((b :: bs) ++ c0 :: cs).take (cap - bd.length) =
                  (b :: bs) ++ (c0 :: cs).take (cap - (bd ++ b :: bs).length) := by
                rw [List.take_append_eq_append_take,
                  List.take_of_length_le (by simp only [List.length_append, List.length_cons] at *; omega)]
                congr 2
                simp only [List.length_append, List.length_cons]
                omega
              have edrop : ((b :: bs) ++ c0 :: cs).drop (cap - bd.length) =
                  (c0 :: cs).drop (cap - (bd ++ b :: bs).length) := by
                rw [List.drop_append_eq_append_drop,
                  List.drop_of_length_le (by simp only [List.length_append, List.length_cons] at *; omega)]
                simp only [List.nil_append]
                congr 1
                simp only [List.length_append, List.length_cons]
                omega
              simp only [etake, edrop, List.append_assoc, List.nil_append]
        · have ecap : cap - bd.length ≤ (b :: bs).length := by
            simp only [List.length_cons] at hlong ⊢; omega
          rw [feed_body_of_long oid op cap bd (b :: bs) (by simp) hlong,
            feed_body_of_long oid op cap bd ((b :: bs) ++ c) (by simp) (by
              simp only [List.length_append, List.length_cons] at hlong ⊢; omega)]
          simp only [List.take_append_of_le_length ecap, List.drop_append_of_le_length ecap]
          have hrec := ih (3 * ((b :: bs).drop (cap - bd.length)).length + 1) (by
              simp only [stateRank, List.length_drop, List.length_cons] at hμ ⊢; omega)
            .empty ((b :: bs).drop (cap - bd.length)) c le_rfl
          rw [hrec]
          simp

/-- The on-wire encoding of a message as described by the spec and built by
the repository's own test helper (`encode_message` in
`wayne-stream/src/buffer/read.rs`): an 8-byte little-endian header
(object id, opcode, size with `size = 8 + body.len()`), the body, then
zero padding to the next multiple of 4. -/
def encodeMsg (m : Msg) : List Nat :=
  [m.object_id % 256, m.object_id / 256 % 256, m.object_id / 65536 % 256,
      m.object_id / 16777216 % 256,
    m.opcode % 256, m.opcode / 256 % 256,
    (8 + m.body.length) % 256, (8 + m.body.length) / 256 % 256]
  ++ m.body ++ List.replicate (pad4 (8 + m.body.length) - (8 + m.body.length)) 0

/-- A message with its body zero-padded to the next multiple of 4; this is
what `MessageStream` actually yields, because it fills the body vector up
to the rounded capacity. -/
def padMsg (m : Msg) : Msg :=
  ⟨m.object_id, m.opcode,
    m.body ++ List.replicate (pad4 (8 + m.body.length) - (8 + m.body.length)) 0⟩

/-- Field bounds under which a message is encodable: `object_id` fits u32,
`opcode` fits u16 and the total size `8 + body.len()` fits u16. -/
def WfMsg (m : Msg) : Prop :=
  m.object_id < 4294967296 ∧ m.opcode < 65536 ∧ 8 + m.body.length < 65536

/-- Concatenated encoding of a message sequence. -/
def encodeMsgs : List Msg → List Nat
  | [] => []
  | m :: rest => encodeMsg m ++ encodeMsgs rest

/-- Feed a sequence of chunks through the resumable parser, collecting
every yielded message in order (the caller's
`for bytes in chunks { for message in parser.parse(bytes) { .. } }` loop
of the repository's own tests). -/
def feedAll (s : ParseState) : List (List Nat) → List Msg × ParseState
  | [] => ([], s)
  | chunk :: rest =>
    let r1 := feed s chunk
    let r2 := feedAll r1.2 rest
    (r1.1 ++ r2.1, r2.2)

/-- Rounding up to a multiple of 4 never shrinks. -/
theorem le_pad4 (n : Nat) : n ≤ pad4 n := by unfold pad4; omega

/-- Chunking is irrelevant: feeding the chunks one by one equals feeding
their concatenation. -/
theorem feedAll_eq_feed_join (s : ParseState) (chunks : List (List Nat)) :
    feedAll s chunks = feed s chunks.flatten := by
  induction chunks generalizing s with
  | nil => simp [feedAll, feed_nil]
  | cons chunk rest ih => simp [feedAll, List.flatten, feed_append, ih]

/-- Feeding one encoded message followed by more bytes yields that message
(with zero-padded body) and continues on the remaining bytes — provided
something follows its header + body region (a nonempty body or nonempty
remainder), because `MessageStream` does not yield a header-only message
until at least one further byte arrives. -/
theorem feed_encode (m : Msg) (hwf : WfMsg m) (rest : List Nat)
    (hne : m.body ≠ [] ∨ rest ≠ []) :
    feed .empty (encodeMsg m ++ rest) =
      (padMsg m :: (feed .empty rest).1, (feed .empty rest).2) := by
  obtain ⟨h1, h2, h3⟩ := hwf
  set hdr : List Nat := [m.object_id % 256, m.object_id / 256 % 256, m.object_id / 65536 % 256,
      m.object_id / 16777216 % 256,
    m.opcode % 256, m.opcode / 256 % 256,
    (8 + m.body.length) % 256, (8 + m.body.length) / 256 % 256] with hhdr
  set pdn := pad4 (8 + m.body.length) - (8 + m.body.length) with hpdn
  have hsplit : encodeMsg m ++ rest = hdr ++ ((m.body ++ List.replicate pdn 0) ++ rest) := by
    simp [encodeMsg, hhdr, hpdn, List.append_assoc]
  rw [hsplit]
  have hcons : hdr ++ ((m.body ++ List.replicate pdn 0) ++ rest) =
      (m.object_id % 256) :: (hdr.tail ++ ((m.body ++ List.replicate pdn 0) ++ rest)) := by
    simp [hhdr]
  rw [hcons, feed_empty_cons, ← hcons]
  rw [feed_header_of_long [] (by simp) _ (by simp [hhdr])]
  have htake : (hdr ++ ((m.body ++ List.replicate pdn 0) ++ rest)).take (8 - ([] : List Nat).length)
      = hdr := by
    rw [List.take_append_of_le_length (by simp [hhdr])]
    rw [List.take_of_length_le (by simp [hhdr])]
  have hdrop : (hdr ++ ((m.body ++ List.replicate pdn 0) ++ rest)).drop (8 - ([] : List Nat).length)
      = (m.body ++ List.replicate pdn 0) ++ rest := by
    rw [List.drop_append_of_le_length (by simp [hhdr])]
    simp [hhdr]
  simp only [htake, hdrop, List.nil_append]
  have hgetD0 : hdr.getD 0 0 = m.object_id % 256 := by simp [hhdr]
  have hgetD1 : hdr.getD 1 0 = m.object_id / 256 % 256 := by simp [hhdr]
  have hgetD2 : hdr.getD 2 0 = m.object_id / 65536 % 256 := by simp [hhdr]
  have hgetD3 : hdr.getD 3 0 = m.object_id / 16777216 % 256 := by simp [hhdr]
  have hgetD4 : hdr.getD 4 0 = m.opcode % 256 := by simp [hhdr]
  have hgetD5 : hdr.getD 5 0 = m.opcode / 256 % 256 := by simp [hhdr]
  have hgetD6 : hdr.getD 6 0 = (8 + m.body.length) % 256 := by simp [hhdr]
  have hgetD7 : hdr.getD 7 0 = (8 + m.body.length) / 256 % 256 := by simp [hhdr]
  rw [hgetD0, hgetD1, hgetD2, hgetD3, hgetD4, hgetD5, hgetD6, hgetD7]
  have hoid : u32dec (m.object_id % 256) (m.object_id / 256 % 256) (m.object_id / 65536 % 256)
      (m.object_id / 16777216 % 256) = m.object_id := by unfold u32dec; omega
  have hop : u16dec (m.opcode % 256) (m.opcode / 256 % 256) = m.opcode := by
    unfold u16dec; omega
  have hsize : u16dec ((8 + m.body.length) % 256) ((8 + m.body.length) / 256 % 256)
      = 8 + m.body.length := by unfold u16dec; omega
  rw [hoid, hop, hsize]
  have hmax : max (8 + m.body.length) 8 = 8 + m.body.length := by omega
  rw [hmax]
  have hcap : pad4 (8 + m.body.length) - 8 = m.body.length + pdn := by
    have := le_pad4 (8 + m.body.length)
    omega
  rw [hcap]
  have hblen : (m.body ++ List.replicate pdn 0).length = m.body.length + pdn := by simp
  rw [feed_body_of_long _ _ _ [] _
    (by
      rcases hne with hb | hr
      · cases hbm : m.body with
        | nil => exact absurd hbm hb
        | cons x xs => simp [hbm]
      · cases hrm : rest with
        | nil => exact absurd hrm hr
        | cons x xs => simp)
    (by simp [hblen])]
  simp only [List.length_nil, Nat.sub_zero, List.nil_append]
  rw [List.take_append_of_le_length (le_of_eq hblen.symm),
    List.take_of_length_le (le_of_eq hblen),
    List.drop_append_of_le_length (le_of_eq hblen.symm),
    List.drop_of_length_le (le_of_eq hblen), List.nil_append]
  simp [padMsg, hpdn]



/-- C1 (amended): for every finite sequence of well-formed messages whose
final message has a nonempty body, and every partition of the
concatenated encoding into chunks, feeding the chunks in order through
the framer yields, in order, exactly one message per input message —
none duplicated, lost or reordered — each carrying the original object
id and opcode and the original body zero-padded to the next multiple of
4 (so exactly `M1..Mk` whenever every body length is a multiple of 4),
and leaves the parser in the empty state. -/
theorem framing_roundtrip (ms : List Msg) (chunks : List (List Nat))
    (hwf : ∀ m ∈ ms, WfMsg m)
    (hlast : ∀ hne : ms ≠ [], (ms.getLast hne).body ≠ [])
    (hjoin : chunks.flatten = encodeMsgs ms) :
    feedAll .empty chunks = (ms.map padMsg, .empty) ∧
    ((∀ m ∈ ms, m.body.length % 4 = 0) → ms.map padMsg = ms) := by
  constructor
  case right =>
    intro h4
    have hid : ∀ m ∈ ms, padMsg m = m := by
      intro m hm
      obtain ⟨a, b, c⟩ := m
      have hc := h4 _ hm
      simp only [Msg.body] at hc
      have hz : pad4 (8 + c.length) - (8 + c.length) = 0 := by
        unfold pad4; omega
      simp [padMsg, hz]
    rw [List.map_congr_left hid]
    simp
  rw [feedAll_eq_feed_join, hjoin]
  clear hjoin
  induction ms with
  | nil => simp [encodeMsgs, feed_nil]
  | cons m tail ih =>
    have hm : WfMsg m := hwf m (by simp)
    cases tail with
    | nil =>
      have hb : m.body ≠ [] := by
        have := hlast (by simp)
        simpa [List.getLast] using this
      rw [show encodeMsgs [m] = encodeMsg m ++ encodeMsgs [] from rfl]
      rw [feed_encode m hm _ (Or.inl hb)]
      simp [encodeMsgs, feed_nil]
    | cons t ts =>
      have hrest : encodeMsgs (t :: ts) ≠ [] := by
        simp [encodeMsgs, encodeMsg]
      rw [show encodeMsgs (m :: t :: ts) = encodeMsg m ++ encodeMsgs (t :: ts) from rfl]
      rw [feed_encode m hm _ (Or.inr hrest)]
      have htail := ih (fun x hx => hwf x (by simp [hx]))
        (fun hne => by
          have := hlast (by simp)
          rwa [List.getLast_cons hne] at this)
      rw [htail]
      simp

/-- C1 (counterexample): the framing round-trip fails as stated. Feeding
the 12-byte encoding of the message (object 1, opcode 2, body `[5]`) in
a single chunk yields a message whose body is `[5,0,0,0]` — the padding
bytes are part of the yielded body — which differs from the original
message; and feeding the full encoding of a message with an empty body
(size 8) yields nothing at all. -/
theorem c1_counterexample :
    (feed .empty (encodeMsgs [⟨1, 2, [5]⟩])).1 = [⟨1, 2, [5, 0, 0, 0]⟩] ∧
    [(⟨1, 2, [5, 0, 0, 0]⟩ : Msg)] ≠ [(⟨1, 2, [5]⟩ : Msg)] ∧
    (feed .empty (encodeMsgs [⟨1, 2, ([] : List Nat)⟩])).1 = [] := by
  refine ⟨?_, by decide, ?_⟩ <;>
    simp [feed, encodeMsgs, encodeMsg, pad4, u16dec, u32dec]

/-- C1 (witness): the amended round-trip applied to the spec's Scenario 1
message (object 420, opcode 69, 8-byte body) split into four 4-byte
chunks. -/
theorem c1_witness :
    feedAll .empty [[164, 1, 0, 0], [69, 0, 16, 0], [1, 2, 3, 4], [5, 6, 7, 8]]
      = ([(⟨420, 69, [1, 2, 3, 4, 5, 6, 7, 8]⟩ : Msg)], .empty) := by
  have h := framing_roundtrip [⟨420, 69, [1, 2, 3, 4, 5, 6, 7, 8]⟩]
    [[164, 1, 0, 0], [69, 0, 16, 0], [1, 2, 3, 4], [5, 6, 7, 8]]
    (by simp [WfMsg]) (by intro hne; simp) (by decide)
  rw [h.1, h.2 (by decide)]

/-! ### The sliding-buffer framer, `wayne-stream/src/buffer/read.rs` (`ReadBuffer`)

Only the data side is modelled (the claims under scrutiny concern the
message indices); the buffer contents are a fixed-length list whose
length is the capacity. -/

/-- State of `ReadBuffer`: backing data buffer plus `data_start`,
`data_end` indices. -/
structure ReadBuffer where
  data : List Nat
  dataStart : Nat
  dataEnd : Nat
deriving DecidableEq, Repr

/-- A fresh `ReadBuffer::new`: both indices zero. -/
def ReadBuffer.new (cap : Nat) : ReadBuffer := ⟨List.replicate cap 0, 0, 0⟩

/-- The slice `&data_buf[data_start..data_end]` that
`parse_message` inspects. -/
def ReadBuffer.window (b : ReadBuffer) : List Nat :=
  (b.data.drop b.dataStart).take (b.dataEnd - b.dataStart)

/-- The second header word `u32::from_ne_bytes([data[4], data[5], data[6],
data[7]])`. -/
def ReadBuffer.secondWord (b : ReadBuffer) : Nat :=
  u32dec (b.window.getD 4 0) (b.window.getD 5 0) (b.window.getD 6 0) (b.window.getD 7 0)

/-- The clamped message length `((second_word >> 16) as u16).max(8)`. -/
def ReadBuffer.messageLen (b : ReadBuffer) : Nat :=
  max (b.secondWord / 65536 % 65536) 8

/-- `ReadBuffer::parse_message` (read.rs lines 57-90), returning the
optional message together with the updated buffer.  Mirrors the source
line by line: fewer than 8 bytes → none; compute `message_len` and
`padded_len`; fewer than `message_len` bytes → none; otherwise advance
`data_start` by `padded_len` clamped to `data_end`
(`(data_start + padded_len).min(data_end)`) and return the message whose
body is `&data[8..message_len]`. -/
def ReadBuffer.parse_message (b : ReadBuffer) : Option Msg × ReadBuffer :=
  if b.window.length < 8 then (none, b)
  else
    let message_len := b.messageLen
    let padded_len := pad4 message_len
    if b.window.length < message_len then (none, b)
    else
      (some ⟨u32dec (b.window.getD 0 0) (b.window.getD 1 0) (b.window.getD 2 0)
            (b.window.getD 3 0),
          b.secondWord % 65536,
          (b.window.drop 8).take (message_len - 8)⟩,
        { b with dataStart := min (b.dataStart + padded_len) b.dataEnd })

/-- `ReadBuffer::shift_data_buffer` (read.rs lines 239-257): reclaim the
consumed prefix by copying `[data_start, data_end)` to offset 0. -/
def ReadBuffer.shift_data_buffer (b : ReadBuffer) : ReadBuffer :=
  if b.dataStart = 0 then b
  else if b.dataStart = b.dataEnd then { b with dataStart := 0, dataEnd := 0 }
  else
    { data := b.window ++ b.data.drop (b.dataEnd - b.dataStart),
      dataStart := 0, dataEnd := b.dataEnd - b.dataStart }

/-- The data-buffer effect of `ReadBuffer::read_from_stream` (read.rs
lines 148-214): shift, then let `recvmsg` fill some prefix of the unused
tail `&data_buf[data_end..]` with incoming bytes and advance `data_end`
by the received count. -/
def ReadBuffer.read_from_stream (b : ReadBuffer) (incoming : List Nat) : ReadBuffer :=
  let b2 := b.shift_data_buffer
  let n := min incoming.length (b2.data.length - b2.dataEnd)
  { data := b2.data.take b2.dataEnd ++ incoming.take n ++ b2.data.drop (b2.dataEnd + n),
    dataStart := b2.dataStart, dataEnd := b2.dataEnd + n }

/-- The operations that mutate a `ReadBuffer`. -/
inductive RBOp where
  | parse
  | recv (incoming : List Nat)

/-- Apply one operation. -/
def rbStep (b : ReadBuffer) : RBOp → ReadBuffer
  | .parse => (b.parse_message).2
  | .recv incoming => b.read_from_stream incoming

/-- Run a sequence of operations from a given buffer. -/
def rbRun (b : ReadBuffer) : List RBOp → ReadBuffer
  | [] => b
  | op :: rest => rbRun (rbStep b op) rest

/-- The framer index invariant `0 ≤ start ≤ end ≤ capacity`. -/
def rbInv (b : ReadBuffer) : Prop :=
  b.dataStart ≤ b.dataEnd ∧ b.dataEnd ≤ b.data.length

theorem rb_window_length (b : ReadBuffer) (hinv : rbInv b) :
    b.window.length = b.dataEnd - b.dataStart := by
  obtain ⟨h1, h2⟩ := hinv
  simp [ReadBuffer.window]
  omega

theorem rb_parse_inv (b : ReadBuffer) (hinv : rbInv b) :
    rbInv (b.parse_message).2 ∧ (b.parse_message).2.data = b.data ∧
      (b.parse_message).2.dataEnd = b.dataEnd := by
  obtain ⟨h1, h2⟩ := hinv
  unfold ReadBuffer.parse_message
  split
  · exact ⟨⟨h1, h2⟩, rfl, rfl⟩
  · dsimp only
    split
    · exact ⟨⟨h1, h2⟩, rfl, rfl⟩
    · exact ⟨⟨by simp, h2⟩, rfl, rfl⟩

theorem rb_shift_inv (b : ReadBuffer) (hinv : rbInv b) :
    rbInv b.shift_data_buffer ∧ b.shift_data_buffer.data.length = b.data.length := by
  obtain ⟨h1, h2⟩ := hinv
  unfold ReadBuffer.shift_data_buffer
  split
  · exact ⟨⟨h1, h2⟩, rfl⟩
  · split
    · exact ⟨⟨le_rfl, by simp⟩, rfl⟩
    · constructor
      · constructor
        · exact Nat.zero_le _
        · simp [ReadBuffer.window]
          omega
      · simp [ReadBuffer.window]
        omega

theorem rb_recv_inv (b : ReadBuffer) (incoming : List Nat) (hinv : rbInv b) :
    rbInv (b.read_from_stream incoming) ∧
      (b.read_from_stream incoming).data.length = b.data.length := by
  obtain ⟨hsi, hsl⟩ := rb_shift_inv b hinv
  obtain ⟨h1, h2⟩ := hsi
  unfold ReadBuffer.read_from_stream
  constructor
  · constructor
    · simp
      omega
    · simp
      omega
  · simp
    omega

/-- C9: starting from a fresh framer, after any sequence of framing
operations and buffer refills the indices satisfy
`data_start ≤ data_end ≤ capacity`; moreover `parse_message` preserves
the invariant from any state satisfying it (its `min` clamp keeps
`data_start` at or below `data_end` even when the decoded size field
claims more bytes than are buffered), so no slice `[start, end)` can go
out of bounds. -/
theorem rb_index_invariant :
    (∀ (cap : Nat) (ops : List RBOp), rbInv (rbRun (ReadBuffer.new cap) ops)) ∧
    (∀ b : ReadBuffer, rbInv b → rbInv (b.parse_message).2) := by
  have hstep : ∀ (b : ReadBuffer) (op : RBOp), rbInv b → rbInv (rbStep b op) := by
    intro b op hinv
    cases op with
    | parse => exact (rb_parse_inv b hinv).1
    | recv incoming => exact (rb_recv_inv b incoming hinv).1
  constructor
  · intro cap ops
    have hrun : ∀ (ops : List RBOp) (b : ReadBuffer), rbInv b → rbInv (rbRun b ops) := by
      intro ops
      induction ops with
      | nil => intro b h; exact h
      | cons op rest ih => intro b h; exact ih _ (hstep b op h)
    exact hrun ops _ ⟨le_rfl, by simp [ReadBuffer.new]⟩
  · intro b hinv
    exact (rb_parse_inv b hinv).1

/-- C9 (witness): the invariant holds concretely after refilling a fresh
16-byte framer with 10 bytes and parsing once. -/
theorem rb_index_invariant_witness :
    rbInv (rbRun (ReadBuffer.new 16) [.recv [1,0,0,0,2,0,8,0,7,7], .parse]) ∧
    rbInv ((ReadBuffer.mk [1,0,0,0,7,0,13,0,9,9,9,9,9] 0 13).parse_message).2 :=
  ⟨rb_index_invariant.1 16 [.recv [1,0,0,0,2,0,8,0,7,7], .parse],
    rb_index_invariant.2 _ (by constructor <;> simp)⟩

/-- C2 (counterexample): with size field 13 and exactly 13 buffered bytes
(fewer than the padded length 16), `parse_message` does not return none:
it returns the message and consumes the 13 available bytes (`data_start`
jumps to `data_end`), contradicting the claimed "nothing consumed until
`padded` bytes are present" postcondition. -/
theorem c2_counterexample :
    ((ReadBuffer.mk [1,0,0,0,7,0,13,0,9,9,9,9,9] 0 13).parse_message).1
        = some ⟨1, 7, [9,9,9,9,9]⟩ ∧
      ((ReadBuffer.mk [1,0,0,0,7,0,13,0,9,9,9,9,9] 0 13).parse_message).2.dataStart = 13 ∧
      (13 : Nat) < pad4 ((ReadBuffer.mk [1,0,0,0,7,0,13,0,9,9,9,9,9] 0 13).messageLen) := by
  decide

/-- C2 (amended): for a buffer state with at least 8 bytes in
`[start, end)`, `parse_message` returns none and consumes nothing exactly
when fewer than `max(size, 8)` bytes are buffered (not `padded`);
otherwise it returns the message whose body is exactly
`max(size, 8) - 8` bytes (padding excluded) and advances `start` by
`padded = (max(size,8) + 3) & ~3` clamped to `end` — so by exactly
`padded` bytes whenever at least `padded` bytes are buffered. -/
theorem c2_parse_postcondition (b : ReadBuffer) (hinv : rbInv b)
    (h8 : 8 ≤ b.dataEnd - b.dataStart) :
    (b.dataEnd - b.dataStart < b.messageLen → b.parse_message = (none, b)) ∧
    (b.messageLen ≤ b.dataEnd - b.dataStart →
      b.parse_message =
        (some ⟨u32dec (b.window.getD 0 0) (b.window.getD 1 0) (b.window.getD 2 0)
              (b.window.getD 3 0),
            b.secondWord % 65536,
            (b.window.drop 8).take (b.messageLen - 8)⟩,
          { b with dataStart := min (b.dataStart + pad4 b.messageLen) b.dataEnd }) ∧
      ((b.window.drop 8).take (b.messageLen - 8)).length = b.messageLen - 8) ∧
    (b.dataStart + pad4 b.messageLen ≤ b.dataEnd →
      min (b.dataStart + pad4 b.messageLen) b.dataEnd = b.dataStart + pad4 b.messageLen) := by
  have hw := rb_window_length b hinv
  refine ⟨?_, ?_, ?_⟩
  · intro hlt
    unfold ReadBuffer.parse_message
    rw [if_neg (by omega)]
    simp only
    rw [if_pos (by omega)]
  · intro hge
    constructor
    · unfold ReadBuffer.parse_message
      rw [if_neg (by omega)]
      simp only
      rw [if_neg (by omega)]
    · have h8m : 8 ≤ b.messageLen := le_max_right _ _
      simp [List.length_take, List.length_drop, hw]
      omega
  · intro hle
    omega

/-- C2 (witness): the amended postcondition at a concrete aligned message
(size 16, 16 bytes buffered): returns the message with an 8-byte body and
advances `start` by exactly 16. -/
theorem c2_parse_postcondition_witness :
    ((ReadBuffer.mk [164,1,0,0,69,0,16,0,1,2,3,4,5,6,7,8] 0 16).parse_message =
      (some ⟨420, 69, [1,2,3,4,5,6,7,8]⟩,
        { (ReadBuffer.mk [164,1,0,0,69,0,16,0,1,2,3,4,5,6,7,8] 0 16) with dataStart := 16 }) ∧
      True) := by
  have h := c2_parse_postcondition (ReadBuffer.mk [164,1,0,0,69,0,16,0,1,2,3,4,5,6,7,8] 0 16)
    (by constructor <;> decide) (by decide)
  obtain ⟨hsome, hlen⟩ := h.2.1 (by decide)
  refine ⟨?_, trivial⟩
  rw [hsome]
  decide

/-! ### Advisory lock acquisition, `wayne-core/src/lock.rs` (`AdvisoryLock::aquire`)

The filesystem is an adversarial oracle: each loop iteration observes the
outcome of its `open`, `try_lock_exclusive`, `fs::metadata(path)` and
`file.metadata()` calls.  A `(device, inode)` pair identifies a file. -/

/-- A `(st_dev, st_ino)` identity pair. -/
structure Ident where
  dev : Nat
  ino : Nat
deriving DecidableEq, Repr

/-- The oracle outcomes one iteration of the `aquire` loop observes:
whether `open` fails, whether `try_lock_exclusive` fails, what
`fs::metadata(path)` reports (`none` = any error, the "disappeared from
under our feet" case), whether `file.metadata()` fails, and the identity
of the opened-and-locked file descriptor (which `file.metadata()` reports
when it succeeds). -/
structure LockIter where
  openErr : Bool
  lockErr : Bool
  statRes : Option Ident
  fstatErr : Bool
  fdIdent : Ident
deriving DecidableEq, Repr

/-- Result of running the acquisition loop over a finite oracle trace. -/
inductive AcqResult where
  | ok (fd : Ident)
  | err
  | pending
deriving DecidableEq, Repr

/-- `AdvisoryLock::aquire` (lock.rs lines 26-67) over an oracle trace,
one `LockIter` per loop iteration: open (`?` propagates errors), lock
(`?` propagates errors, including `WouldBlock`), `fs::metadata(path)`
(any error restarts the loop), `file.metadata()` (`?` propagates errors),
then compare `(st_dev, st_ino)`: a mismatch restarts the loop, a match
returns the locked file.  `pending` means the trace ended while the loop
was still retrying. -/
def aquire : List LockIter → AcqResult
  | [] => .pending
  | it :: rest =>
    if it.openErr then .err
    else if it.lockErr then .err
    else
      match it.statRes with
      | none => aquire rest
      | some pathId =>
        if it.fstatErr then .err
        else if pathId.dev ≠ it.fdIdent.dev ∨ pathId.ino ≠ it.fdIdent.ino then aquire rest
        else .ok it.fdIdent

/-- C3: whenever lock acquisition returns successfully, the succeeding
iteration re-verified identity: the path resolved and its
`(device, inode)` equals that of the locked descriptor, which is the
returned one; and an iteration whose path no longer resolves, or whose
two identities differ, drops the descriptor and restarts the loop
instead of returning. -/
theorem aquire_identity_verified :
    (∀ (env : List LockIter) (r : Ident), aquire env = .ok r →
      ∃ it ∈ env, it.openErr = false ∧ it.lockErr = false ∧ it.fstatErr = false ∧
        it.statRes = some it.fdIdent ∧ r = it.fdIdent) ∧
    (∀ (it : LockIter) (rest : List LockIter), it.openErr = false → it.lockErr = false →
      it.statRes = none → aquire (it :: rest) = aquire rest) ∧
    (∀ (it : LockIter) (rest : List LockIter) (p : Ident), it.openErr = false →
      it.lockErr = false → it.statRes = some p → it.fstatErr = false →
      p ≠ it.fdIdent → aquire (it :: rest) = aquire rest) := by
  refine ⟨?_, ?_, ?_⟩
  · intro env
    induction env with
    | nil => intro r h; simp [aquire] at h
    | cons it rest ih =>
      intro r h
      rw [aquire] at h
      by_cases ho : it.openErr
      · simp [ho] at h
      · by_cases hl : it.lockErr
        · simp [ho, hl] at h
        · cases hs : it.statRes with
          | none =>
            simp only [ho, hl, hs, if_false, Bool.false_eq_true] at h
            obtain ⟨it2, hmem, hrest⟩ := ih r h
            exact ⟨it2, by simp [hmem], hrest⟩
          | some p =>
            by_cases hf : it.fstatErr
            · simp [ho, hl, hs, hf] at h
            · by_cases hd : p.dev ≠ it.fdIdent.dev ∨ p.ino ≠ it.fdIdent.ino
              · simp only [ho, hl, hs, hf, hd, Bool.false_eq_true, if_false, if_true] at h
                obtain ⟨it2, hmem, hrest⟩ := ih r h
                exact ⟨it2, by simp [hmem], hrest⟩
              · simp only [ho, hl, hs, hf, hd, Bool.false_eq_true, if_false] at h
                push_neg at hd
                have hpd : p = it.fdIdent := by
                  cases p; cases hid : it.fdIdent
                  simp_all
                cases h
                exact ⟨it, by simp, by simp [ho], by simp [hl], by simp [hf],
                  by rw [hs, hpd], rfl⟩
  · intro it rest ho hl hs
    rw [aquire, ho, hs]
    simp [hl]
  · intro it rest p ho hl hs hf hd
    rw [aquire, ho, hs]
    have hdd : p.dev ≠ it.fdIdent.dev ∨ p.ino ≠ it.fdIdent.ino := by
      by_contra hcon
      push_neg at hcon
      apply hd
      cases p; cases hfd : it.fdIdent
      simp_all
    simp [hl, hf, hdd]

/-- C3 (witness): a trace whose first iteration sees a vanished path and
whose second iteration sees a recreated-then-replaced file (identity
mismatch) keeps looping, and a verified third iteration returns the
descriptor identity that matches the path. -/
theorem aquire_identity_verified_witness :
    (∃ it ∈ [LockIter.mk false false (some ⟨3, 7⟩) false ⟨3, 7⟩],
      it.openErr = false ∧ it.lockErr = false ∧ it.fstatErr = false ∧
        it.statRes = some it.fdIdent ∧ Ident.mk 3 7 = it.fdIdent) ∧
    aquire [LockIter.mk false false none false ⟨1, 1⟩] = aquire [] ∧
    aquire [LockIter.mk false false (some ⟨2, 5⟩) false ⟨2, 6⟩] = aquire [] :=
  ⟨aquire_identity_verified.1 [LockIter.mk false false (some ⟨3, 7⟩) false ⟨3, 7⟩]
      ⟨3, 7⟩ (by decide),
    aquire_identity_verified.2.1 (LockIter.mk false false none false ⟨1, 1⟩) []
      rfl rfl rfl,
    aquire_identity_verified.2.2 (LockIter.mk false false (some ⟨2, 5⟩) false ⟨2, 6⟩) []
      ⟨2, 5⟩ rfl rfl rfl rfl (by decide)⟩

/-! ### Bind ordering, `wayne-core/src/server.rs` (`Server::bind_path`) and
`wayne-core/src/socket.rs` (`WaylandSocket::bind`)

Each execution is abstracted as the sequence of externally visible
filesystem/socket events it performs, driven by the same kind of oracle
trace as the lock loop. -/

/-- Externally visible events of a bind execution. -/
inductive BindEv where
  | openLockFile
  | flockAcquired
  | lockVerified
  | unlinkSockPath
  | bindSocket
  | listenSocket
deriving DecidableEq, Repr

/-- Oracle outcomes for one iteration of the `bind_path` lock loop
(server.rs lines 99-128): `open` error, `try_lock_exclusive` error,
`lock_file.metadata()` error, the fd identity it reports, and
`fs::metadata(&lock_path)`: `none` = an error other than `NotFound`
(propagated), `some none` = `NotFound` (continue), `some (some d)` =
found with identity `d`. -/
structure BpIter where
  openErr : Bool
  lockErr : Bool
  fstatErr : Bool
  fdIdent : Ident
  statRes : Option (Option Ident)
deriving DecidableEq, Repr

/-- Events of the `bind_path` lock loop together with whether it broke out
successfully (`break lock_file`). -/
def bpLoop : List BpIter → List BindEv × Bool
  | [] => ([], false)
  | it :: rest =>
    if it.openErr then ([.openLockFile], false)
    else if it.lockErr then ([.openLockFile], false)
    else if it.fstatErr then ([.openLockFile, .flockAcquired], false)
    else
      match it.statRes with
      | none => ([.openLockFile, .flockAcquired], false)
      | some none =>
        let r := bpLoop rest
        (.openLockFile :: .flockAcquired :: r.1, r.2)
      | some (some d) =>
        if d = it.fdIdent then ([.openLockFile, .flockAcquired, .lockVerified], true)
        else
          let r := bpLoop rest
          (.openLockFile :: .flockAcquired :: r.1, r.2)

/-- Event trace of `Server::bind_path` (server.rs lines 90-145): run the
lock loop; only after it breaks with the verified lock held does the
function unlink a pre-existing socket file and then bind and listen. -/
def bindPathEvents (env : List BpIter) (sockExists : Bool) : List BindEv :=
  let r := bpLoop env
  r.1 ++
    if r.2 then (if sockExists then [.unlinkSockPath] else []) ++ [.bindSocket, .listenSocket]
    else []

/-- Oracle outcomes for one iteration of the `WaylandSocket::bind` lock
loop (socket.rs lines 99-151): `open` error, `flock` error,
`stat(lock_path)` (`none` = any error, continue), `fstat` error, fd
identity. -/
structure WsIter where
  openErr : Bool
  lockErr : Bool
  statRes : Option Ident
  fstatErr : Bool
  fdIdent : Ident
deriving DecidableEq, Repr

/-- Events of the `WaylandSocket::bind` lock loop with its success flag. -/
def wsLoop : List WsIter → List BindEv × Bool
  | [] => ([], false)
  | it :: rest =>
    if it.openErr then ([.openLockFile], false)
    else if it.lockErr then ([.openLockFile], false)
    else
      match it.statRes with
      | none =>
        let r := wsLoop rest
        (.openLockFile :: .flockAcquired :: r.1, r.2)
      | some p =>
        if it.fstatErr then ([.openLockFile, .flockAcquired], false)
        else if p = it.fdIdent then ([.openLockFile, .flockAcquired, .lockVerified], true)
        else
          let r := wsLoop rest
          (.openLockFile :: .flockAcquired :: r.1, r.2)

/-- Event trace of `WaylandSocket::bind` (socket.rs lines 60-215): it
stats the socket path and unlinks a pre-existing file *first* (lines
81-95), and only then enters the lock loop; bind and listen follow a
successful loop. -/
def waylandSocketBindEvents (sockExists : Bool) (env : List WsIter) : List BindEv :=
  (if sockExists then [.unlinkSockPath] else []) ++
    (let r := wsLoop env
     r.1 ++ if r.2 then [.bindSocket, .listenSocket] else [])

/-- Scanner for the ordering property: every `unlinkSockPath` event must be
preceded by a `lockVerified` event (the accumulator records whether the
verified lock has been acquired so far). -/
def unlinkAfterLock (lockSeen : Bool) : List BindEv → Bool
  | [] => true
  | e :: rest =>
    match e with
    | .lockVerified => unlinkAfterLock true rest
    | .unlinkSockPath => lockSeen && unlinkAfterLock lockSeen rest
    | _ => unlinkAfterLock lockSeen rest

/-- C4 (counterexample): `WaylandSocket::bind` with a pre-existing socket
file unlinks it as its very first event, before the advisory lock is
acquired — its trace is rejected by the ordering scanner — refuting the
claim for the `bind` entry point. -/
theorem c4_counterexample :
    waylandSocketBindEvents true [WsIter.mk false false (some ⟨1, 1⟩) false ⟨1, 1⟩]
        = [.unlinkSockPath, .openLockFile, .flockAcquired, .lockVerified,
          .bindSocket, .listenSocket] ∧
      unlinkAfterLock false
        (waylandSocketBindEvents true [WsIter.mk false false (some ⟨1, 1⟩) false ⟨1, 1⟩])
        = false := by
  decide

/-- C4 (amended): in every execution of `Server::bind_path`, a
pre-existing socket file is unlinked only after the exclusive advisory
lock on the companion lock file has been acquired and verified, and
while it is held; `WaylandSocket::bind`, by contrast, unlinks the
pre-existing socket path before taking the lock. -/
theorem bind_path_unlink_under_lock :
    ∀ (env : List BpIter) (sockExists : Bool),
      unlinkAfterLock false (bindPathEvents env sockExists) = true := by
  intro env sockExists
  induction env with
  | nil => simp [bindPathEvents, bpLoop, unlinkAfterLock]
  | cons it rest ih =>
    unfold bindPathEvents at ih ⊢
    rw [bpLoop]
    by_cases ho : it.openErr
    · simp [ho, unlinkAfterLock]
    · by_cases hl : it.lockErr
      · simp [ho, hl, unlinkAfterLock]
      · by_cases hf : it.fstatErr
        · simp [ho, hl, hf, unlinkAfterLock]
        · cases hs : it.statRes with
          | none =>
            simp [ho, hl, hf, hs, unlinkAfterLock]
          | some o =>
            cases o with
            | none =>
              simp only [ho, hl, hf, hs, Bool.false_eq_true, if_false]
              simpa [unlinkAfterLock] using ih
            | some d =>
              by_cases hd : d = it.fdIdent
              · simp only [ho, hl, hf, hs, hd, Bool.false_eq_true, if_false, if_true]
                cases sockExists <;> simp [unlinkAfterLock]
              · simp only [ho, hl, hf, hs, hd, Bool.false_eq_true, if_false]
                simpa [unlinkAfterLock] using ih

/-- C4 (witness): the amended ordering property at a concrete trace: one
vanished-path retry, then a verified acquisition with a stale socket
file present. -/
theorem bind_path_unlink_under_lock_witness :
    unlinkAfterLock false
      (bindPathEvents
        [BpIter.mk false false false ⟨1, 1⟩ (some none),
          BpIter.mk false false false ⟨2, 9⟩ (some (some ⟨2, 9⟩))] true) = true :=
  bind_path_unlink_under_lock _ true

/-! ### Client receive, `wayne-core/src/client.rs` (`ClientStream::receive`)

A single `recvmsg` outcome is an oracle value: would-block, a fatal
error, or delivered data with a control-truncation flag and a list of
ancillary records. -/

/-- An ancillary control record as `rustix` delivers it to the drain loop. -/
inductive Anc where
  | scmRights (fds : List Nat)
  | scmCredentials
deriving DecidableEq, Repr

/-- The drain loop of `ClientStream::receive` (client.rs lines 84-92):
`ScmRights(fds)` extends the fd queue, `ScmCredentials` logs a warning
and is otherwise ignored.  Returns the fds appended and the number of
warnings logged. -/
def drainAnc : List Anc → List Nat × Nat
  | [] => ([], 0)
  | .scmRights fds :: rest =>
    let r := drainAnc rest
    (fds ++ r.1, r.2)
  | .scmCredentials :: rest =>
    let r := drainAnc rest
    (r.1, r.2 + 1)

/-- The message/fd queues of `RecvBuffer` (client.rs lines 104-110). -/
structure RecvBuffer where
  messages : List Msg
  fds : List Nat
deriving DecidableEq, Repr

/-- One `recvmsg` outcome. -/
inductive RecvOutcome where
  | wouldBlock
  | ioError
  | ok (bytes : List Nat) (ctrunc : Bool) (anc : List Anc)

/-- The errors `receive` can surface. -/
inductive RecvError where
  | io
  | truncated
deriving DecidableEq, Repr

/-- `ClientStream::receive` (client.rs lines 63-100): would-block returns
`Ok(false)`; other `recvmsg` errors propagate; a set `MSG_CTRUNC` flag is
a hard error; otherwise the ancillary records are drained (SCM_RIGHTS
fds enqueued, SCM_CREDENTIALS warned about and skipped), the received
bytes are run through the resumable message parser, and the call returns
`Ok(true)`.  The result carries the new parser state, the new buffer,
the progress flag, and the number of warnings logged. -/
def receive (ps : ParseState) (buf : RecvBuffer) :
    RecvOutcome → Except RecvError (ParseState × RecvBuffer × Bool × Nat)
  | .wouldBlock => .ok (ps, buf, false, 0)
  | .ioError => .error .io
  | .ok bytes ctrunc anc =>
    if ctrunc then .error .truncated
    else
      let d := drainAnc anc
      let r := feed ps bytes
      .ok (r.2, ⟨buf.messages ++ r.1, buf.fds ++ d.1⟩, true, d.2)

/-- The SCM_RIGHTS payloads of an ancillary sequence, in order. -/
def rightsOf (anc : List Anc) : List Nat :=
  (anc.map fun a => match a with | .scmRights fds => fds | .scmCredentials => []).flatten

/-- The number of SCM_CREDENTIALS records in an ancillary sequence. -/
def credCount (anc : List Anc) : Nat :=
  anc.countP fun a => match a with | .scmCredentials => true | _ => false

theorem drainAnc_spec (anc : List Anc) : drainAnc anc = (rightsOf anc, credCount anc) := by
  induction anc with
  | nil => simp [drainAnc, rightsOf, credCount]
  | cons a rest ih =>
    cases a with
    | scmRights fds => simp [drainAnc, rightsOf, credCount, ih,
        rightsOf, List.countP_cons]
    | scmCredentials => simp [drainAnc, rightsOf, credCount, ih, List.countP_cons]

/-- C5 (counterexample): a receive whose ancillary data is a single
SCM_CREDENTIALS record does not fail: it returns `Ok` (with one warning
logged), refuting the claim that such a receive fails with
`InvalidControl`. -/
theorem c5_counterexample :
    receive .empty ⟨[], []⟩ (.ok [] false [.scmCredentials])
      = .ok (.empty, ⟨[], []⟩, true, 1) := by
  simp [receive, drainAnc, feed_nil]

/-- C5 (amended): SCM_CREDENTIALS records never make `receive` fail.  On
any non-truncated delivery, `receive` succeeds, logs one warning per
SCM_CREDENTIALS record, and still enqueues exactly the SCM_RIGHTS fds in
order; the only failures are a set control-truncation flag and plain
I/O errors; would-block reports no progress. -/
theorem receive_credentials_warn_only :
    (∀ (ps : ParseState) (buf : RecvBuffer) (bytes : List Nat) (anc : List Anc),
      receive ps buf (.ok bytes false anc) =
        .ok ((feed ps bytes).2,
          ⟨buf.messages ++ (feed ps bytes).1, buf.fds ++ rightsOf anc⟩,
          true, credCount anc)) ∧
    (∀ (ps : ParseState) (buf : RecvBuffer) (bytes : List Nat) (anc : List Anc),
      receive ps buf (.ok bytes true anc) = .error .truncated) ∧
    (∀ (ps : ParseState) (buf : RecvBuffer),
      receive ps buf .ioError = .error .io ∧
      receive ps buf .wouldBlock = .ok (ps, buf, false, 0)) := by
  refine ⟨?_, ?_, ?_⟩
  · intro ps buf bytes anc
    simp [receive, drainAnc_spec]
  · intro ps buf bytes anc
    simp [receive]
  · intro ps buf
    exact ⟨rfl, rfl⟩

/-! ### The parser combinator core, `wayne-protocol/src/parse.rs`

Each Rust parser value is a state `σ`; the `Parser` trait's `parse`
method becomes a function from the state and the two buffers (bytes and
fds, consumed from the front via `Buffer::take`) to a tri-state outcome
plus the mutated buffers.  Closures stored inside a parser value
(`Map.map`, `Then`'s `FnOnce`) never change across resumption, so they
live in the implementation record rather than in the state. -/

/-- Tri-state outcome of one `parse` call: `Done(Output)`,
`Incomplete(Parser)`, `Failed` (`ParseError` / `ParseResult`,
parse.rs lines 67-81). -/
inductive POut (σ α : Type) where
  | done (a : α)
  | incomplete (s : σ)
  | failed
deriving DecidableEq, Repr

/-- A parser implementation (the `Parser` trait, parse.rs lines 83-90). -/
structure PImpl (σ α : Type) where
  parse : σ → List Nat → List Nat → POut σ α × List Nat × List Nat

/-- `Pass` (parse.rs lines 111-127): consumes nothing, returns its item. -/
def passImpl (α : Type) : PImpl α α :=
  ⟨fun item bytes fds => (.done item, bytes, fds)⟩

/-- The loop of `Bytes::parse` (parse.rs lines 181-202): take bytes until
the accumulated vector reaches its capacity; an exhausted buffer yields
`Incomplete` with the partial vector kept. -/
def bytesParse (cap : Nat) : List Nat → List Nat → POut (Nat × List Nat) (List Nat) × List Nat
  | acc, [] =>
    if cap ≤ acc.length then (.done acc, [])
    else (.incomplete (cap, acc), [])
  | acc, b :: rest =>
    if cap ≤ acc.length then (.done acc, b :: rest)
    else bytesParse cap (acc ++ [b]) rest

/-- `Bytes` (parse.rs lines 169-202): state is capacity plus accumulated
bytes. -/
def bytesImpl : PImpl (Nat × List Nat) (List Nat) :=
  ⟨fun s bytes fds =>
    let r := bytesParse s.1 s.2 bytes
    (r.1, r.2, fds)⟩

/-- `Map` (parse.rs lines 204-229): transform the output when done, keep
the inner parser on `Incomplete`. -/
def mapImpl {σ α β : Type} (P : PImpl σ α) (f : α → β) : PImpl σ β :=
  ⟨fun s bytes fds =>
    match P.parse s bytes fds with
    | (.done a, b2, f2) => (.done (f a), b2, f2)
    | (.incomplete s2, b2, f2) => (.incomplete s2, b2, f2)
    | (.failed, b2, f2) => (.failed, b2, f2)⟩

/-- `Then` (parse.rs lines 244-298): the state is
`First(Map<P1, F>) | Second(P2)`.  Note the source's control flow: when
the first half finishes within a call, the new `Second` state is stored
and the call returns `Incomplete(self)` — the second half is *not* run
in the same call; only a call that starts in `Second` can return
`Done`. -/
def thenImpl {σ₁ σ₂ α β : Type} (P1 : PImpl σ₁ α) (P2 : PImpl σ₂ β) (f : α → σ₂) :
    PImpl (σ₁ ⊕ σ₂) β :=
  ⟨fun s bytes fds =>
    match s with
    | .inl s1 =>
      match P1.parse s1 bytes fds with
      | (.done a, b2, f2) => (.incomplete (.inr (f a)), b2, f2)
      | (.incomplete s1b, b2, f2) => (.incomplete (.inl s1b), b2, f2)
      | (.failed, b2, f2) => (.failed, b2, f2)
    | .inr s2 =>
      match P2.parse s2 bytes fds with
      | (.done out, b2, f2) => (.done out, b2, f2)
      | (.incomplete s2b, b2, f2) => (.incomplete (.inr s2b), b2, f2)
      | (.failed, b2, f2) => (.failed, b2, f2)⟩

/-- `Some` (parse.rs lines 300-331): unwrap `Base(Some v)`, fail on
`Base(None)`. -/
def someImpl {σ α : Type} (P : PImpl σ (Option α)) : PImpl σ α :=
  ⟨fun s bytes fds =>
    match P.parse s bytes fds with
    | (.done (some a), b2, f2) => (.done a, b2, f2)
    | (.done none, b2, f2) => (.failed, b2, f2)
    | (.incomplete s2, b2, f2) => (.incomplete s2, b2, f2)
    | (.failed, b2, f2) => (.failed, b2, f2)⟩

/-- `then(p, pass)`: `p.then(Pass::new)` — the combinator under claim C6.
`ThenExt::then` starts in `First` (parse.rs lines 287-298), so the
initial state is `Sum.inl` of `p`'s state. -/
def thenPass {σ α : Type} (P : PImpl σ α) : PImpl (σ ⊕ α) α :=
  thenImpl P (passImpl α) (fun a => a)

/-- Observable outcome of a single parse call, forgetting the resumption
state: what "the same outcome (Done with the same output, Incomplete, or
Failed)" compares. -/
inductive Obs (α : Type) where
  | done (a : α)
  | incomplete
  | failed
deriving DecidableEq, Repr

/-- Forget the parser carried by `Incomplete`. -/
def obs {σ α : Type} : POut σ α → Obs α
  | .done a => .done a
  | .incomplete _ => .incomplete
  | .failed => .failed

/-- C6 (counterexample): `then(p, pass)` is not observationally `p` on a
single parse call: with `p = Pass(42)`, `p` returns `Done 42` immediately
while `then(p, pass)` returns `Incomplete` on the same call (its first
half finished, but the source stores the `Second` state and reports
`Incomplete` instead of running the trivial second half). -/
theorem c6_counterexample :
    obs ((passImpl Nat).parse 42 [] []).1 = Obs.done 42 ∧
    obs ((thenPass (passImpl Nat)).parse (Sum.inl 42) [] []).1 = Obs.incomplete ∧
    (Obs.done 42 : Obs Nat) ≠ Obs.incomplete := by
  decide

/-- C6 (amended): `then(p, pass)` consumes exactly what `p` consumes and
eventually produces `p`'s output, but completes one parse call later:
when `p` returns `Done a` in a call, `then(p, pass)` returns `Incomplete`
in that call with the same buffer consumption, and `Done a` on the next
call without consuming anything; `Incomplete` and `Failed` outcomes of
`p` carry over unchanged with identical consumption. -/
theorem then_pass_observational (σ α : Type) (P : PImpl σ α) (s : σ)
    (bytes fds : List Nat) :
    (∀ a b2 f2, P.parse s bytes fds = (.done a, b2, f2) →
      (thenPass P).parse (.inl s) bytes fds = (.incomplete (.inr a), b2, f2) ∧
      ∀ b3 f3, (thenPass P).parse (.inr a) b3 f3 = (.done a, b3, f3)) ∧
    (∀ s2 b2 f2, P.parse s bytes fds = (.incomplete s2, b2, f2) →
      (thenPass P).parse (.inl s) bytes fds = (.incomplete (.inl s2), b2, f2)) ∧
    (∀ b2 f2, P.parse s bytes fds = (.failed, b2, f2) →
      (thenPass P).parse (.inl s) bytes fds = (.failed, b2, f2)) := by
  refine ⟨?_, ?_, ?_⟩
  · intro a b2 f2 h
    constructor
    · simp [thenPass, thenImpl, h]
    · intro b3 f3
      simp [thenPass, thenImpl, passImpl]
  · intro s2 b2 f2 h
    simp [thenPass, thenImpl, h]
  · intro b2 f2 h
    simp [thenPass, thenImpl, h]

/-- C6 (witness): the amended statement at `p = Pass(42)` with concrete
buffers. -/
theorem then_pass_observational_witness :
    (thenPass (passImpl Nat)).parse (Sum.inl 42) [] [] = (.incomplete (Sum.inr 42), [], []) ∧
    (thenPass (passImpl Nat)).parse (Sum.inr 42) [7] [9] = (.done 42, [7], [9]) :=
  ⟨(((then_pass_observational Nat Nat (passImpl Nat) 42 [] []).1 42 [] []) rfl).1,
    (((then_pass_observational Nat Nat (passImpl Nat) 42 [] []).1 42 [] []) rfl).2 [7] [9]⟩

/-- `parse::u32()` (parse.rs lines 18-20): `Bytes::new(4)` mapped through
`u32::from_ne_bytes`. -/
def u32Impl : PImpl (Nat × List Nat) Nat :=
  mapImpl bytesImpl fun b => u32dec (b.getD 0 0) (b.getD 1 0) (b.getD 2 0) (b.getD 3 0)

/-- Initial state of `parse::u32()`: `Bytes::new(4)` with an empty
vector. -/
def u32Init : Nat × List Nat := (4, [])

/-- The generated `parse(value: u32) -> Option<Self>` of a protocol enum
(wayne-protocol-macros generator.rs lines 266-275): a `match` whose arms
are the entry values in declaration order (the first matching arm wins),
with a `None` fallback. -/
def enumParse : List (Nat × String) → Nat → Option String
  | [], _ => none
  | (v, nm) :: rest, x => if x = v then some nm else enumParse rest x

/-- The decoder the generator composes for an int/uint argument tagged
with an enum (generator.rs lines 200-207):
`parse::u32().map(|v| Kind::parse(v as u32)).some()`. -/
def enumArgImpl (entries : List (Nat × String)) : PImpl (Nat × List Nat) String :=
  someImpl (mapImpl u32Impl fun v => enumParse entries v)

theorem bytesParse_full (cap : Nat) (acc bytes : List Nat) (h : cap ≤ acc.length) :
    bytesParse cap acc bytes = (.done acc, bytes) := by
  cases bytes <;> simp [bytesParse, h]

theorem bytesParse_four (b0 b1 b2 b3 : Nat) (rest : List Nat) :
    bytesParse 4 [] (b0 :: b1 :: b2 :: b3 :: rest) = (.done [b0, b1, b2, b3], rest) := by
  simp [bytesParse, bytesParse_full]

/-- C7: decoding a 4-byte enum-tagged argument: when the decoded u32
value is the literal value of an entry (first match in declaration
order), the generated decoder yields `Done` with that entry, consuming
exactly the four bytes; when no entry matches, it yields `Failed`; and
with distinct entry values, membership of `(value, entry)` pins the
first match to that entry. -/
theorem enum_arg_decoding (entries : List (Nat × String)) (b0 b1 b2 b3 : Nat)
    (rest fds : List Nat) :
    (∀ nm, enumParse entries (u32dec b0 b1 b2 b3) = some nm →
      (enumArgImpl entries).parse (4, []) (b0 :: b1 :: b2 :: b3 :: rest) fds
        = (.done nm, rest, fds)) ∧
    (enumParse entries (u32dec b0 b1 b2 b3) = none →
      (enumArgImpl entries).parse (4, []) (b0 :: b1 :: b2 :: b3 :: rest) fds
        = (.failed, rest, fds)) ∧
    (∀ nm, (u32dec b0 b1 b2 b3, nm) ∈ entries → (entries.map Prod.fst).Nodup →
      enumParse entries (u32dec b0 b1 b2 b3) = some nm) := by
  refine ⟨?_, ?_, ?_⟩
  · intro nm h
    simp [enumArgImpl, someImpl, mapImpl, u32Impl, bytesImpl, bytesParse_four, h]
  · intro h
    simp [enumArgImpl, someImpl, mapImpl, u32Impl, bytesImpl, bytesParse_four, h]
  · intro nm hmem hnd
    set x := u32dec b0 b1 b2 b3 with hx
    clear hx
    induction entries with
    | nil => simp at hmem
    | cons e tail ih =>
      obtain ⟨v, n⟩ := e
      simp only [List.map_cons, List.nodup_cons] at hnd
      rcases List.mem_cons.mp hmem with hhead | htail
      · have hv : x = v := congrArg Prod.fst hhead
        have hn : nm = n := congrArg Prod.snd hhead
        subst hv
        subst hn
        simp [enumParse]
      · have hxv : x ≠ v := by
          intro hcon
          apply hnd.1
          subst hcon
          exact List.mem_map.mpr ⟨(x, nm), htail, rfl⟩
        simp only [enumParse, if_neg hxv]
        exact ih hnd.2 htail

/-- C7 (witness): against entries `{A=0, B=1}`, the bytes
`[0,0,0,0]` decode to `Done A` and `[2,0,0,0]` decode to `Failed`. -/
theorem enum_arg_decoding_witness :
    (enumArgImpl [(0, "A"), (1, "B")]).parse (4, []) [0, 0, 0, 0] [] = (.done "A", [], []) ∧
    (enumArgImpl [(0, "A"), (1, "B")]).parse (4, []) [2, 0, 0, 0] [] = (.failed, [], []) :=
  ⟨(enum_arg_decoding [(0, "A"), (1, "B")] 0 0 0 0 [] []).1 "A" (by decide),
    (enum_arg_decoding [(0, "A"), (1, "B")] 2 0 0 0 [] []).2.1 (by decide)⟩

/-- The fd-consuming second loop of `Consume::parse` (parse.rs lines
156-166). -/
def consumeFds (nf : Nat) : List Nat → POut (Nat × Nat) (Nat × Nat) × List Nat :=
  match nf with
  | 0 => fun fds => (.done (0, 0), fds)
  | nf2 + 1 => fun fds =>
    match fds with
    | [] => (.incomplete (0, nf2 + 1), [])
    | _ :: fr => consumeFds nf2 fr

/-- The byte-consuming first loop of `Consume::parse` (parse.rs lines
140-166), falling through to the fd loop. -/
def consumeBytes (nb : Nat) (nf : Nat) : List Nat → List Nat →
    POut (Nat × Nat) (Nat × Nat) × List Nat × List Nat :=
  match nb with
  | 0 => fun bytes fds =>
    let r := consumeFds nf fds
    (r.1, bytes, r.2)
  | nb2 + 1 => fun bytes fds =>
    match bytes with
    | [] => (.incomplete (nb2 + 1, nf), [], fds)
    | _ :: br => consumeBytes nb2 nf br fds

/-- `Consume` (parse.rs lines 129-167): state is the remaining byte and
fd counts. -/
def consumeImpl : PImpl (Nat × Nat) (Nat × Nat) :=
  ⟨fun s bytes fds => consumeBytes s.1 s.2 bytes fds⟩

/-- The second half of `array()`'s outer `then` (parse.rs lines 48-55):
`Consume::new(remaining, 0).map(|_| bytes)` — the captured array bytes
are part of the parser value, hence of the state. -/
def consumeMapImpl : PImpl ((Nat × Nat) × List Nat) (List Nat) :=
  ⟨fun s bytes fds =>
    match consumeBytes s.1.1 s.1.2 bytes fds with
    | (.done _, b2, f2) => (.done s.2, b2, f2)
    | (.incomplete c2, b2, f2) => (.incomplete (c2, s.2), b2, f2)
    | (.failed, b2, f2) => (.failed, b2, f2)⟩

/-- `parse::array()` (parse.rs lines 38-56):
`u32().then(|len| Bytes::new(len)).then(|bytes| Consume::new(padded_len -
len, 0).map(|_| bytes))`, where `padded_len = (bytes.len() + 3) & !3`. -/
def arrayImpl :
    PImpl (((Nat × List Nat) ⊕ (Nat × List Nat)) ⊕ ((Nat × Nat) × List Nat)) (List Nat) :=
  thenImpl (thenImpl u32Impl bytesImpl fun len => (len, []))
    consumeMapImpl
    (fun bs => ((pad4 bs.length - bs.length, 0), bs))

/-- Initial state of `parse::array()`. -/
def arrayInit : ((Nat × List Nat) ⊕ (Nat × List Nat)) ⊕ ((Nat × Nat) × List Nat) :=
  .inl (.inl (4, []))

/-- Verification driver: re-invoke `parse` while it reports `Incomplete`,
up to `fuel` calls, threading the buffers — what a caller does when all
input is already buffered. -/
def runImpl {σ α : Type} (P : PImpl σ α) : Nat → σ → List Nat → List Nat →
    POut σ α × List Nat × List Nat
  | 0, s, bytes, fds => (.incomplete s, bytes, fds)
  | fuel + 1, s, bytes, fds =>
    match P.parse s bytes fds with
    | (.incomplete s2, b2, f2) => runImpl P fuel s2 b2 f2
    | r => r

/-! ### The protocol generator's argument handling

`wayne-protocol-macros/src/protocol/generator.rs` builds the per-request
decoder by folding the argument list into `then` chains
(`Data<&Request>::to_tokens`, lines 178-211) and emits the request
struct's field types (`Data<&Arg>::to_tokens`, lines 280-307);
`wayne-protocol-macros/src/protocol.rs` (`Arg::to_tokens`, lines
175-228) is the struct-only generator draft.  Both are embedded as
functions from the parsed XML argument to symbolic descriptions. -/

/-- The `type` attribute of a protocol `<arg>` (`ArgType`). -/
inductive ArgTy where
  | int
  | uint
  | fixed
  | string
  | object
  | newId
  | array
  | fd
deriving DecidableEq, Repr

/-- A parsed `<arg>` element (the `Arg` struct of protocol.rs lines
159-173): name, type, optional interface, optional enum tag, optional
allow-null marker, summary. -/
structure ArgData where
  name : String
  ty : ArgTy
  interface : Option String
  enumKind : Option String
  allowNull : Option String
  summary : String
deriving DecidableEq, Repr

/-- The leaf parsers `parse::<ty>()` the decoder fold can pick
(generator.rs lines 189-198). -/
inductive LeafP where
  | i32P
  | u32P
  | f32P
  | stringP
  | objIdP
  | newIdP
  | arrayP
  | fdP
deriving DecidableEq, Repr

/-- The leaf parser the decoder generator picks for an argument
(generator.rs lines 189-198): determined by `arg.ty` alone. -/
def leafFor (a : ArgData) : LeafP :=
  match a.ty with
  | .int => .i32P
  | .uint => .u32P
  | .fixed => .f32P
  | .string => .stringP
  | .object => .objIdP
  | .newId => .newIdP
  | .array => .arrayP
  | .fd => .fdP

/-- The `.map(..).some()` enum mapper the decoder generator appends
(generator.rs lines 200-203): present exactly when the argument carries
an `enum=` tag. -/
def mapperFor (a : ArgData) : Option String := a.enumKind

/-- Symbolic Rust type of a generated struct field. -/
inductive TyRep where
  | f32R
  | fixedPointR
  | stringR
  | arrayR
  | fdR
  | objIdR (iface : Option String)
  | newIdR (iface : Option String)
  | i32R
  | u32R
  | enumR (kind : String)
  | optionR (t : TyRep)
deriving DecidableEq, Repr

/-- Field type emitted by the decoder generator's `Data<&Arg>::to_tokens`
(generator.rs lines 291-300): no `Option` wrapping exists in this
generator. -/
def fieldTyGen (a : ArgData) : TyRep :=
  match a.ty with
  | .fixed => .f32R
  | .string => .stringR
  | .array => .arrayR
  | .fd => .fdR
  | .object => .objIdR a.interface
  | .newId => .newIdR a.interface
  | .int =>
    match a.enumKind with
    | some k => .enumR k
    | none => .i32R
  | .uint =>
    match a.enumKind with
    | some k => .enumR k
    | none => .u32R

/-- Base field type of the struct-only generator draft (protocol.rs lines
207-216). -/
def fieldTyProtoBase (a : ArgData) : TyRep :=
  match a.ty with
  | .fixed => .fixedPointR
  | .string => .stringR
  | .array => .arrayR
  | .fd => .fdR
  | .object => .objIdR a.interface
  | .newId => .newIdR a.interface
  | .int =>
    match a.enumKind with
    | some k => .enumR k
    | none => .i32R
  | .uint =>
    match a.enumKind with
    | some k => .enumR k
    | none => .u32R

/-- Field type of the struct-only generator draft (protocol.rs lines
218-221): wrapped in `Option` exactly when `allow-null` is present. -/
def fieldTyProto (a : ArgData) : TyRep :=
  match a.allowNull with
  | some _ => .optionR (fieldTyProtoBase a)
  | none => fieldTyProtoBase a

/-- The same argument with its allow-null marker removed. -/
def clearNull (a : ArgData) : ArgData :=
  { a with allowNull := none }

/-- An `<arg name="data" type="array" allow-null="true"/>`. -/
def nullableArrayArg : ArgData :=
  ⟨"data", .array, none, none, some "true", "the data"⟩

/-- C8 (counterexample): for an allow-null array argument, the decoder
generator's struct field type is the bare array type, not an optional
one, and the generated decoder (the plain `parse::array()` leaf) decodes
a zero length word to `Done` with the empty array — a present empty
value, never `None`. -/
theorem c8_counterexample :
    fieldTyGen nullableArrayArg = TyRep.arrayR ∧
    TyRep.arrayR ≠ TyRep.optionR TyRep.arrayR ∧
    leafFor nullableArrayArg = LeafP.arrayP ∧
    runImpl arrayImpl 3 arrayInit [0, 0, 0, 0] [] = (.done [], [], []) := by
  refine ⟨rfl, by decide, rfl, ?_⟩
  rfl

/-- C8 (amended): the decoder-generating macro ignores `allow-null`
entirely — an allow-null argument gets the same leaf parser, the same
enum mapper and the same non-optional struct field type as the argument
without the marker, and a zero length word decodes to an empty
string/array value rather than `None` (shown for `array()`: on a 4-byte
zero length word the decoder finishes with `Done []` consuming exactly
those 4 bytes).  Only the struct-only generator draft in protocol.rs
wraps allow-null argument field types in `Option`. -/
theorem allow_null_ignored_by_decoder_gen :
    (∀ a : ArgData, leafFor a = leafFor (clearNull a) ∧
      mapperFor a = mapperFor (clearNull a) ∧
      fieldTyGen a = fieldTyGen (clearNull a)) ∧
    (∀ a : ArgData, a.allowNull.isSome = true →
      fieldTyProto a = .optionR (fieldTyProtoBase a)) ∧
    (∀ rest fds : List Nat,
      runImpl arrayImpl 3 arrayInit (0 :: 0 :: 0 :: 0 :: rest) fds
        = (.done [], rest, fds)) := by
  refine ⟨?_, ?_, ?_⟩
  · intro a
    exact ⟨rfl, rfl, rfl⟩
  · intro a h
    unfold fieldTyProto
    cases ha : a.allowNull with
    | some v => rfl
    | none => rw [ha] at h; simp at h
  · intro rest fds
    simp [runImpl, arrayImpl, arrayInit, thenImpl, u32Impl, mapImpl, bytesImpl,
      bytesParse_four, bytesParse_full, consumeMapImpl, consumeBytes, consumeFds,
      u32dec, pad4, bytesParse]

/-- C8 (witness): the amended statement at the allow-null array argument
and a concrete zero-length wire word. -/
theorem allow_null_ignored_witness :
    fieldTyProto nullableArrayArg = TyRep.optionR (fieldTyProtoBase nullableArrayArg) ∧
    leafFor nullableArrayArg = leafFor (clearNull nullableArrayArg) ∧
    runImpl arrayImpl 3 arrayInit [0, 0, 0, 0, 9, 9] [] = (.done [], [9, 9], []) :=
  ⟨allow_null_ignored_by_decoder_gen.2.1 nullableArrayArg rfl,
    (allow_null_ignored_by_decoder_gen.1 nullableArrayArg).1,
    allow_null_ignored_by_decoder_gen.2.2 [9, 9] []⟩

/-! ### Partially initialized buffers, `wayne-buffer/src/init.rs`
(`InitBuffer`)

Only the tracked lengths matter to the claim: the capacity of the raw
region (`raw.len()`, fixed) and the initialized prefix length
(`init_len`). -/

/-- `InitBuffer` length state: `cap = raw.len()`, `initLen = init_len`. -/
structure InitBuffer where
  cap : Nat
  initLen : Nat
deriving DecidableEq, Repr

/-- `InitBuffer::new` (init.rs lines 13-15): `init_len` starts at 0. -/
def InitBuffer.new (cap : Nat) : InitBuffer := ⟨cap, 0⟩

/-- `InitBuffer::write` (init.rs lines 48-62): copies
`min(bytes.len(), uninit.len())` bytes into the uninitialized suffix and
returns the count — it does *not* change `init_len`. -/
def InitBuffer.write (b : InitBuffer) (bytes : List Nat) : Nat :=
  min bytes.length (b.cap - b.initLen)

/-- `InitBuffer::consume` (init.rs lines 67-82): drop `count` bytes from
the initialized prefix, shifting any remainder to the front. -/
def InitBuffer.consume (b : InitBuffer) (count : Nat) : InitBuffer :=
  if b.initLen ≤ count then { b with initLen := 0 }
  else { b with initLen := b.initLen - count }

/-- `InitBuffer::set_init` (init.rs lines 94-98): asserts
`init_len + count < raw.len()` — *strictly* less — and then sets the new
length; `none` models the panic of a failed assertion. -/
def InitBuffer.set_init (b : InitBuffer) (count : Nat) : Option InitBuffer :=
  if b.initLen + count < b.cap then some { b with initLen := b.initLen + count }
  else none

/-- The operations on an `InitBuffer`. -/
inductive IBOp where
  | write (bytes : List Nat)
  | consume (count : Nat)
  | setInit (count : Nat)

/-- Apply one operation; a `set_init` whose assertion fails (a panic)
leaves no successor state, modelled as the state unchanged. -/
def ibStep (b : InitBuffer) : IBOp → InitBuffer
  | .write _ => b
  | .consume n => b.consume n
  | .setInit n =>
    match b.set_init n with
    | some b2 => b2
    | none => b

/-- Run a sequence of operations. -/
def ibRun (b : InitBuffer) : List IBOp → InitBuffer
  | [] => b
  | op :: rest => ibRun (ibStep b op) rest

/-- C10: `set_init(count)` succeeds exactly when
`init_len + count < capacity` and panics whenever the resulting length
would equal or exceed the capacity; a successful call sets
`init_len + count`, still strictly below the capacity; consequently no
operation sequence on a buffer of positive capacity can ever drive the
initialized length up to the full capacity. -/
theorem set_init_strict :
    (∀ (b : InitBuffer) (count : Nat),
      ((b.set_init count).isSome = true ↔ b.initLen + count < b.cap) ∧
      (∀ b2, b.set_init count = some b2 →
        b2.initLen = b.initLen + count ∧ b2.initLen < b2.cap ∧ b2.cap = b.cap)) ∧
    (∀ (cap : Nat) (ops : List IBOp), 0 < cap →
      (ibRun (InitBuffer.new cap) ops).initLen < (ibRun (InitBuffer.new cap) ops).cap) := by
  constructor
  · intro b count
    constructor
    · unfold InitBuffer.set_init
      split
      · simp_all
      · simp_all
    · intro b2 h
      unfold InitBuffer.set_init at h
      split at h
      · cases h
        simp_all
      · cases h
  · intro cap ops hcap
    have hstep : ∀ (b : InitBuffer) (op : IBOp),
        b.initLen < b.cap ∨ (b.initLen = 0 ∧ b.cap = 0) →
        (ibStep b op).initLen < (ibStep b op).cap ∨
          ((ibStep b op).initLen = 0 ∧ (ibStep b op).cap = 0) := by
      intro b op hb
      cases op with
      | write bytes => exact hb
      | consume n =>
        show (b.consume n).initLen < (b.consume n).cap ∨
          ((b.consume n).initLen = 0 ∧ (b.consume n).cap = 0)
        unfold InitBuffer.consume
        rcases hb with h | h <;> split <;> simp <;> omega
      | setInit n =>
        show (ibStep b (.setInit n)).initLen < (ibStep b (.setInit n)).cap ∨
          ((ibStep b (.setInit n)).initLen = 0 ∧ (ibStep b (.setInit n)).cap = 0)
        cases hs : b.set_init n with
        | none => simp only [ibStep, hs]; exact hb
        | some b2 =>
          simp only [ibStep, hs]
          unfold InitBuffer.set_init at hs
          split at hs
          · cases hs
            left
            simpa using by omega
          · cases hs
    have hrun : ∀ (ops : List IBOp) (b : InitBuffer),
        b.initLen < b.cap ∨ (b.initLen = 0 ∧ b.cap = 0) →
        (ibRun b ops).initLen < (ibRun b ops).cap ∨
          ((ibRun b ops).initLen = 0 ∧ (ibRun b ops).cap = 0) := by
      intro ops
      induction ops with
      | nil => intro b h; exact h
      | cons op rest ih => intro b h; exact ih _ (hstep b op h)
    have := hrun ops (InitBuffer.new cap) (Or.inl (by simpa [InitBuffer.new] using hcap))
    rcases this with h | h
    · exact h
    · -- impossible: the capacity never changes, and it is positive
      exfalso
      have hcapfix : ∀ (ops : List IBOp) (b : InitBuffer), (ibRun b ops).cap = b.cap := by
        intro ops
        induction ops with
        | nil => intro b; rfl
        | cons op rest ih =>
          intro b
          rw [ibRun, ih]
          cases op with
          | write bytes => rfl
          | consume n =>
            show (b.consume n).cap = b.cap
            unfold InitBuffer.consume
            split <;> rfl
          | setInit n =>
            show (ibStep b (.setInit n)).cap = b.cap
            cases hs : b.set_init n with
            | none => simp [ibStep, hs]
            | some b2 =>
              simp only [ibStep, hs]
              unfold InitBuffer.set_init at hs
              split at hs
              · cases hs; rfl
              · cases hs
      rw [hcapfix ops (InitBuffer.new cap)] at h
      simp [InitBuffer.new] at h
      omega

/-- C10 (witness): on a capacity-8 buffer, `set_init 7` succeeds
(7 < 8), `set_init 8` panics, and a concrete operation sequence keeps
the initialized length strictly below the capacity. -/
theorem set_init_strict_witness :
    ((InitBuffer.new 8).set_init 7).isSome = true ∧
    ((InitBuffer.new 8).set_init 8).isSome = false ∧
    (ibRun (InitBuffer.new 8) [.setInit 7, .consume 3, .setInit 3]).initLen <
      (ibRun (InitBuffer.new 8) [.setInit 7, .consume 3, .setInit 3]).cap :=
  ⟨((set_init_strict.1 (InitBuffer.new 8) 7).1).mpr (by decide),
    by decide,
    set_init_strict.2 8 [.setInit 7, .consume 3, .setInit 3] (by decide)⟩

end Wayne

